import Mathlib

/-!
Verification of the DP-in-Flower tutorial notebooks.

The notebook's own glue code (`load_datasets`, `FlowerClient.fit`,
`unweighted_average`, `dp_experiment` configuration) is embedded directly.
The differential-privacy machinery it exercises (the FL framework's
`DPFedAvgAdaptive` strategy, client sampling, and the privacy-accounting
library's Renyi accountant and calibration search) lives in external
libraries, so those parts are modelled from the specification's description
of the mechanisms.
-/

namespace Flower

/-! ## Data loading (notebook cell `load_datasets`) -/

/-- The notebook's global batch size constant (`BATCH_SIZE = 32`). -/
def BATCH_SIZE : Nat := 32

/-- The notebook's global client count constant (`NUM_CLIENTS = 1000`). -/
def NUM_CLIENTS : Nat := 1000

/-- Size of the CIFAR-10 training set the notebook loads (50000 examples). -/
def trainsetSize : Nat := 50000

/-- Models `torch.utils.data.random_split(dataset, lengths)` at the level of
sizes: the splitter's documented contract rejects a `lengths` list whose sum
differs from the dataset size (it raises `ValueError`), and otherwise returns
one part per requested length. -/
def random_split (total : Nat) (lengths : List Nat) : Option (List Nat) :=
  if lengths.sum = total then some lengths else none

/-- The per-partition train/validation split inside `load_datasets`:
`len_val = len(ds) // 10`, `len_train = len(ds) - len_val`, then
`random_split(ds, [len_train, len_val])`.  Returns the pair
(training examples, validation examples) for one client. -/
def splitPartition (p : Nat) : Option (Nat × Nat) :=
  let len_val := p / 10
  let len_train := p - len_val
  match random_split p [len_train, len_val] with
  | some _ => some (len_train, len_val)
  | none => none

/-- `load_datasets(num_clients)` at the level of sizes: computes
`partition_size = len(trainset) // num_clients`, splits the training set into
`num_clients` partitions of that size via `random_split`, then splits each
partition into train/validation.  Returns the list of per-client
(train size, validation size) pairs, or `none` when the underlying
`random_split` rejects the requested lengths. -/
def load_datasets (num_clients : Nat) (trainLen : Nat) : Option (List (Nat × Nat)) :=
  let partition_size := trainLen / num_clients
  let lengths := List.replicate num_clients partition_size
  match random_split trainLen lengths with
  | none => none
  | some parts => parts.mapM splitPartition

/-! ## The Flower client (notebook cell `FlowerClient`) -/

/-- Models `len()` of a PyTorch `DataLoader` built with `drop_last=False`:
the number of batches, `ceil(dataset_size / batch_size)`. -/
def dataLoaderLen (datasetLen batchSize : Nat) : Nat :=
  (datasetLen + batchSize - 1) / batchSize

/-- The second component of `FlowerClient.fit`'s return value,
`len(self.trainloader)`: the number of batches of the client's training
loader, for a client holding `trainLen` training examples. -/
def fitSecondComponent (trainLen : Nat) : Nat :=
  dataLoaderLen trainLen BATCH_SIZE

/-! ## Metric aggregation (notebook cell `unweighted_average`) -/

/-- `unweighted_average(metrics)`: multiplies each client's accuracy by the
neutral example count 1, sums, and divides by the sum of the neutral counts.
Python raises `ZeroDivisionError` when `sum(examples) = 0`, which happens
exactly on the empty input, so the embedding returns `Option`.  The result is
the value at the "accuracy" key of the returned mapping. -/
def unweighted_average (metrics : List (Nat × ℚ)) : Option ℚ :=
  let num_examples : ℚ := 1
  let accuracies := metrics.map (fun m => num_examples * m.2)
  let examples := metrics.map (fun _ => num_examples)
  if examples.sum = 0 then none else some (accuracies.sum / examples.sum)

/-! ## Basic facts about the data-loading pipeline -/

theorem splitPartition_eq (p : Nat) : splitPartition p = some (p - p / 10, p / 10) := by
  have h : (p - p / 10) + (p / 10) = p := Nat.sub_add_cancel (Nat.div_le_self p 10)
  simp [splitPartition, random_split, h]

theorem mapM_splitPartition_replicate (n p : Nat) :
    (List.replicate n p).mapM splitPartition =
      some (List.replicate n (p - p / 10, p / 10)) := by
  induction n with
  | zero => rfl
  | succ k ih =>
    rw [List.replicate_succ, List.replicate_succ, List.mapM_cons, splitPartition_eq, ih]
    rfl

theorem load_datasets_of_dvd (n L : Nat) (h : n ∣ L) :
    load_datasets n L = some (List.replicate n (L / n - L / n / 10, L / n / 10)) := by
  have hsum : (List.replicate n (L / n)).sum = L := by
    rw [List.sum_replicate, smul_eq_mul, Nat.mul_div_cancel' h]
  simp only [load_datasets, random_split, hsum, if_pos rfl]
  exact mapM_splitPartition_replicate n (L / n)

theorem unweighted_average_eq (l : List (Nat × ℚ)) :
    unweighted_average l =
      if l = [] then none else some ((l.map Prod.snd).sum / (l.length : ℚ)) := by
  have hsum : (l.map (fun _ => (1 : ℚ))).sum = (l.length : ℚ) := by
    induction l with
    | nil => simp
    | cons a t ih => simp [ih]; ring
  have hacc : (l.map (fun m => (1 : ℚ) * m.2)).sum = (l.map Prod.snd).sum := by
    simp [one_mul]
  by_cases h : l = []
  · subst h; simp [unweighted_average]
  · have hlen : (l.length : ℚ) ≠ 0 := by
      have : 0 < l.length := List.length_pos.mpr h
      exact_mod_cast Nat.pos_iff_ne_zero.mp this
    simp only [unweighted_average, hsum, hacc, if_neg hlen, if_neg h]

/-- Claim C10: `load_datasets(num_clients)` succeeds exactly when `num_clients`
divides the training-set size (the partition lengths are `num_clients` copies
of `len(trainset) // num_clients` and `random_split` rejects lengths that do
not sum to the dataset size); on success every client receives exactly
`len(trainset) // num_clients` examples, of which a tenth (floored) go to
validation and the rest to training. -/
theorem claim_C10 (n L : Nat) :
    ((load_datasets n L).isSome ↔ n ∣ L) ∧
    (n ∣ L →
      load_datasets n L = some (List.replicate n (L / n - L / n / 10, L / n / 10))) := by
  constructor
  · constructor
    · intro h
      by_contra hd
      have hsum : (List.replicate n (L / n)).sum = n * (L / n) := by
        rw [List.sum_replicate, smul_eq_mul]
      have hne : ¬ n * (L / n) = L := fun he => hd ⟨L / n, he.symm⟩
      simp only [load_datasets, random_split, hsum, if_neg hne] at h
      simp at h
    · intro h
      rw [load_datasets_of_dvd n L h]
      rfl
  · exact load_datasets_of_dvd n L

/-- Claim C9: `unweighted_average` returns the plain arithmetic mean of the
clients' accuracies on a non-empty input, is invariant under any change of the
example-count components, and hits Python's division by zero (modelled as
`none`) exactly on the empty sequence. -/
theorem claim_C9 (l : List (Nat × ℚ)) :
    (l ≠ [] → unweighted_average l = some ((l.map Prod.snd).sum / (l.length : ℚ))) ∧
    (∀ l2 : List (Nat × ℚ), l.map Prod.snd = l2.map Prod.snd →
      unweighted_average l = unweighted_average l2) ∧
    unweighted_average ([] : List (Nat × ℚ)) = none := by
  refine ⟨fun h => by rw [unweighted_average_eq, if_neg h], fun l2 h2 => ?_,
    by simp [unweighted_average]⟩
  have hlen : l.length = l2.length := by
    simpa using congrArg List.length h2
  have hemp : (l = []) ↔ (l2 = []) := by
    rw [← List.length_eq_zero, ← List.length_eq_zero, hlen]
  rw [unweighted_average_eq, unweighted_average_eq, h2, hlen]
  simp only [hemp]

/-- Claim C8 (the failing computation, evaluated): under the notebook's
partitioning, every client holds 45 training examples, yet
`FlowerClient.fit` returns `len(self.trainloader)` — the number of batches of
a 45-example loader at batch size 32, which is 2, not the example count 45. -/
theorem claim_C8 :
    load_datasets NUM_CLIENTS trainsetSize = some (List.replicate 1000 (45, 5)) ∧
    fitSecondComponent 45 = 2 ∧ 45 ≠ 2 := by
  refine ⟨?_, by decide, by decide⟩
  have h := load_datasets_of_dvd 1000 50000 (by norm_num)
  norm_num at h
  exact h

/-! ## AdaptiveClipper: per-update rescaling

The FL framework's `DPFedAvgAdaptive` strategy that the notebook configures is
an external library, so the clipping rule is modelled from the spec. -/

/-- Sum of the squared entries of an update vector. -/
def sumSq (u : List ℝ) : ℝ := (u.map (fun x => x ^ 2)).sum

/-- Modelled from the spec: the L2 norm of a client update, `||update||`,
used by the AdaptiveClipper (the clipping code itself lives in the external
FL framework, not in this repository). -/
noncomputable def l2norm (u : List ℝ) : ℝ := Real.sqrt (sumSq u)

/-- Modelled from the spec: the AdaptiveClipper's rescaling of one client
update, `update * min(1, clip_norm / ||update||)` (the clipping code lives in
the external FL framework, not in this repository). -/
noncomputable def clipUpdate (clip_norm : ℝ) (u : List ℝ) : List ℝ :=
  u.map (fun x => x * min 1 (clip_norm / l2norm u))

theorem sumSq_nonneg (u : List ℝ) : 0 ≤ sumSq u :=
  List.sum_nonneg (by
    intro x hx
    rcases List.mem_map.mp hx with ⟨y, _, rfl⟩
    exact sq_nonneg y)

theorem l2norm_nonneg (u : List ℝ) : 0 ≤ l2norm u := Real.sqrt_nonneg _

theorem sumSq_map_mul (u : List ℝ) (a : ℝ) :
    sumSq (u.map (fun x => x * a)) = sumSq u * a ^ 2 := by
  simp only [sumSq, List.map_map]
  have : ((fun x => x ^ 2) ∘ fun x => x * a) = fun x => x ^ 2 * a ^ 2 := by
    funext x; simp [mul_pow]
  rw [this, List.sum_map_mul_right]

theorem l2norm_map_mul (u : List ℝ) (a : ℝ) (ha : 0 ≤ a) :
    l2norm (u.map (fun x => x * a)) = l2norm u * a := by
  rw [l2norm, sumSq_map_mul, Real.sqrt_mul (sumSq_nonneg u), Real.sqrt_sq ha, l2norm]

theorem sumSq_eq_zero (u : List ℝ) (h : sumSq u = 0) : ∀ x ∈ u, x = 0 := by
  induction u with
  | nil => simp
  | cons a t ih =>
    have ha : 0 ≤ a ^ 2 := sq_nonneg a
    have ht : 0 ≤ sumSq t := sumSq_nonneg t
    have hsum : a ^ 2 + sumSq t = 0 := by simpa [sumSq] using h
    have ha0 : a ^ 2 = 0 := by linarith
    have ht0 : sumSq t = 0 := by linarith
    intro x hx
    rcases List.mem_cons.mp hx with hx | hx
    · subst hx; exact pow_eq_zero_iff (two_ne_zero) |>.mp ha0
    · exact ih ht0 x hx

theorem clipUpdate_of_le (c : ℝ) (u : List ℝ) (h : l2norm u ≤ c) :
    clipUpdate c u = u := by
  rcases (l2norm_nonneg u).eq_or_lt with h0 | h0
  · have hz : ∀ x ∈ u, x = 0 := by
      refine sumSq_eq_zero u ?_
      exact (Real.sqrt_eq_zero (sumSq_nonneg u)).mp h0.symm
    have : ∀ x ∈ u, x * min 1 (c / l2norm u) = x := by
      intro x hx
      rw [hz x hx, zero_mul]
    calc clipUpdate c u = u.map (fun x => x) := List.map_congr_left this
      _ = u := List.map_id' u
  · have hone : (1 : ℝ) ≤ c / l2norm u := (one_le_div h0).mpr h
    have : min 1 (c / l2norm u) = 1 := min_eq_left hone
    simp [clipUpdate, this]

/-- Claim C1: for a clip norm `c > 0`, the AdaptiveClipper's output is
`update * min(1, c / ||update||)`; when `||U|| > c` the output's L2 norm is
exactly `c`, when `||U|| <= c` the output is `U` unchanged, and a zero-norm
update is returned unchanged. -/
theorem claim_C1 (c : ℝ) (u : List ℝ) (hc : 0 < c) :
    clipUpdate c u = u.map (fun x => x * min 1 (c / l2norm u)) ∧
    (c < l2norm u → l2norm (clipUpdate c u) = c) ∧
    (l2norm u ≤ c → clipUpdate c u = u) ∧
    (l2norm u = 0 → clipUpdate c u = u) := by
  refine ⟨rfl, ?_, clipUpdate_of_le c u, ?_⟩
  · intro hlt
    have hn : 0 < l2norm u := lt_trans hc hlt
    have hfac : min 1 (c / l2norm u) = c / l2norm u :=
      min_eq_right (le_of_lt ((div_lt_one hn).mpr hlt))
    have hfacpos : 0 ≤ c / l2norm u := div_nonneg hc.le hn.le
    rw [clipUpdate, hfac, l2norm_map_mul u _ hfacpos, mul_comm,
      div_mul_cancel₀ c (ne_of_gt hn)]
  · intro h0
    exact clipUpdate_of_le c u (by rw [h0]; exact hc.le)

/-- Concrete instance of claim C1 at `c = 5`, `U = [3, 4]` (so `||U|| = 5`). -/
theorem claim_C1_witness :
    (0 : ℝ) < 5 ∧
    (clipUpdate 5 [3, 4] = [3, 4].map (fun x => x * min 1 (5 / l2norm [3, 4])) ∧
     (5 < l2norm [3, 4] → l2norm (clipUpdate 5 [3, 4]) = 5) ∧
     (l2norm [3, 4] ≤ 5 → clipUpdate 5 [3, 4] = [3, 4]) ∧
     (l2norm [3, 4] = 0 → clipUpdate 5 [3, 4] = [3, 4])) :=
  ⟨by norm_num, claim_C1 5 [3, 4] (by norm_num)⟩

/-! ## NoiseInjector: server-side vs client-side noising

The noising code lives in the external FL framework's `DPFedAvgAdaptive`
strategy; the two modes are modelled from the spec. -/

/-- Modelled from the spec: under server-side noising a single central
Gaussian draw with standard deviation `noise_multiplier * clip_norm` is added
to the aggregate (the noising code lives in the external FL framework). -/
noncomputable def serverNoiseStd (noise_multiplier clip_norm : ℝ) : ℝ :=
  noise_multiplier * clip_norm

/-- Total variance of the aggregate noise under server-side noising: the
square of the single draw's standard deviation. -/
noncomputable def serverNoiseVariance (noise_multiplier clip_norm : ℝ) : ℝ :=
  serverNoiseStd noise_multiplier clip_norm ^ 2

/-- Modelled from the spec: under client-side noising each of the `n` sampled
clients independently adds a Gaussian draw carrying `1/n` of the total
variance, i.e. with standard deviation `noise_multiplier * clip_norm / √n`,
before transmission (the noising code lives in the external FL framework). -/
noncomputable def clientNoiseStd (n : Nat) (noise_multiplier clip_norm : ℝ) : ℝ :=
  noise_multiplier * clip_norm / Real.sqrt n

/-- Total variance of the aggregate noise under client-side noising: the `n`
per-client draws are independent, so their variances add. -/
noncomputable def clientAggregateVariance (n : Nat) (noise_multiplier clip_norm : ℝ) : ℝ :=
  n * clientNoiseStd n noise_multiplier clip_norm ^ 2

/-- Claim C2: for every sampled-client count `n > 0`, clip norm and noise
multiplier, client-side noising (each client adding an independent draw with
`1/n` of the variance) and server-side noising (one central draw of standard
deviation `noise_multiplier * clip_norm`) give aggregates with exactly equal
total noise variance `(noise_multiplier * clip_norm)^2`. -/
theorem claim_C2 (n : Nat) (nm c : ℝ) (hn : 0 < n) :
    clientAggregateVariance n nm c = serverNoiseVariance nm c ∧
    serverNoiseVariance nm c = (nm * c) ^ 2 := by
  have hn0 : (n : ℝ) ≠ 0 := Nat.cast_ne_zero.mpr (Nat.pos_iff_ne_zero.mp hn)
  have hsq : Real.sqrt n ^ 2 = (n : ℝ) := Real.sq_sqrt (Nat.cast_nonneg n)
  constructor
  · rw [clientAggregateVariance, clientNoiseStd, div_pow, hsq, serverNoiseVariance,
      serverNoiseStd, mul_comm, div_mul_cancel₀ _ hn0]
  · rfl

/-- Concrete instance of claim C2 at `n = 4`, `noise_multiplier = 3`,
`clip_norm = 2`. -/
theorem claim_C2_witness :
    0 < 4 ∧
    (clientAggregateVariance 4 3 2 = serverNoiseVariance 3 2 ∧
     serverNoiseVariance 3 2 = ((3 : ℝ) * 2) ^ 2) :=
  ⟨by norm_num, claim_C2 4 3 2 (by norm_num)⟩

/-! ## AdaptiveClipper: geometric clip-norm adaptation -/

/-- Modelled from the spec: one round of the AdaptiveClipper's clip-norm
adaptation, `clip_norm_{t+1} = clip_norm_t * exp(-lr * (observed_fraction_below
- target_quantile))` (the adaptation code lives in the external FL
framework, not in this repository). -/
noncomputable def nextClipNorm (clip_norm lr frac quantile : ℝ) : ℝ :=
  clip_norm * Real.exp (-(lr * (frac - quantile)))

/-- Claim C3: the clip-norm update follows the geometric rule and is strictly
monotone in the direction of the gap: with a positive clip norm and learning
rate, an observed fraction above the target quantile strictly shrinks the
clip norm, one below it strictly grows it, and the clip norm stays strictly
positive after every round. -/
theorem claim_C3 (c lr frac q : ℝ) (hc : 0 < c) (hlr : 0 < lr) :
    nextClipNorm c lr frac q = c * Real.exp (-(lr * (frac - q))) ∧
    (q < frac → nextClipNorm c lr frac q < c) ∧
    (frac < q → c < nextClipNorm c lr frac q) ∧
    0 < nextClipNorm c lr frac q := by
  refine ⟨rfl, ?_, ?_, mul_pos hc (Real.exp_pos _)⟩
  · intro h
    have harg : -(lr * (frac - q)) < 0 := by nlinarith
    have hexp : Real.exp (-(lr * (frac - q))) < 1 := by
      rw [← Real.exp_zero]
      exact Real.exp_lt_exp.mpr harg
    have hfin := mul_lt_mul_of_pos_left hexp hc
    rw [mul_one] at hfin
    exact hfin
  · intro h
    have harg : 0 < -(lr * (frac - q)) := by nlinarith
    have hexp : 1 < Real.exp (-(lr * (frac - q))) := by
      rw [← Real.exp_zero]
      exact Real.exp_lt_exp.mpr harg
    have hfin := mul_lt_mul_of_pos_left hexp hc
    rw [mul_one] at hfin
    exact hfin

/-- Concrete instance of claim C3 at `clip_norm = 1`, `lr = 1`,
`observed_fraction = 3/4`, `target_quantile = 1/2`. -/
theorem claim_C3_witness :
    (0 : ℝ) < 1 ∧ (0 : ℝ) < 1 ∧
    (nextClipNorm 1 1 (3 / 4) (1 / 2) = 1 * Real.exp (-(1 * ((3 : ℝ) / 4 - 1 / 2))) ∧
     ((1 : ℝ) / 2 < 3 / 4 → nextClipNorm 1 1 (3 / 4) (1 / 2) < 1) ∧
     ((3 : ℝ) / 4 < 1 / 2 → 1 < nextClipNorm 1 1 (3 / 4) (1 / 2)) ∧
     0 < nextClipNorm 1 1 (3 / 4) (1 / 2)) :=
  ⟨by norm_num, by norm_num, claim_C3 1 1 (3 / 4) (1 / 2) (by norm_num) (by norm_num)⟩

/-! ## RoundOrchestrator: per-round client sampling

The sampling code lives in the external FL framework's `FedAvg` strategy and
client manager; it is modelled from the spec, with the notebook's
configuration `fraction_fit=0.05`, `min_fit_clients=20`,
`min_available_clients=1000`. -/

/-- Modelled from the spec: the fit-round sample size of the FL framework's
`FedAvg` strategy (code not in this repository) — the configured fraction of
the available pool, truncated to an integer, clamped below by the configured
minimum number of fit clients. -/
def numFitClients (num_available : Nat) (fraction_fit : ℚ) (min_fit_clients : Nat) : Nat :=
  max (Int.toNat ⌊fraction_fit * num_available⌋) min_fit_clients

/-- The fatal per-round error of the orchestrator's sampling state. -/
inductive RoundError where
  | insufficientClients
deriving DecidableEq

/-- Modelled from the spec: one round's client sampling (code not in this
repository) — a fixed-size subset taken without replacement from the
available pool, failing with `InsufficientClients` when fewer clients are
available than the configured minimum.  The chosen subset is modelled as the
initial segment of the pool; which clients are drawn is random in the source,
but the claim concerns only the size, distinctness and failure rule. -/
def sampleFitClients (pool : List Nat) (fraction_fit : ℚ)
    (min_fit_clients min_available_clients : Nat) : Except RoundError (List Nat) :=
  if pool.length < min_available_clients then .error .insufficientClients
  else .ok (pool.take (numFitClients pool.length fraction_fit min_fit_clients))

/-- Claim C7: sampling fails with `InsufficientClients` when fewer clients
are available than the configured minimum; otherwise it returns a
without-replacement subset of the pool whose size is the configured fraction
of the pool clamped to the configured minimum; with a pool of 1000 clients,
`fraction_fit = 0.05` and `min_fit_clients = 20`, exactly 50 clients are
sampled. -/
theorem claim_C7 (pool : List Nat) (fraction_fit : ℚ) (minFit minAvail : Nat)
    (hsize : numFitClients pool.length fraction_fit minFit ≤ pool.length) :
    (pool.length < minAvail →
      sampleFitClients pool fraction_fit minFit minAvail = .error .insufficientClients) ∧
    (minAvail ≤ pool.length → ∃ s,
      sampleFitClients pool fraction_fit minFit minAvail = .ok s ∧
      s.length = max (Int.toNat ⌊fraction_fit * pool.length⌋) minFit ∧
      s.Sublist pool ∧ (pool.Nodup → s.Nodup)) ∧
    numFitClients 1000 (5 / 100) 20 = 50 := by
  refine ⟨fun hlt => by simp [sampleFitClients, if_pos hlt], fun hge => ?_, ?_⟩
  · refine ⟨pool.take (numFitClients pool.length fraction_fit minFit), ?_, ?_, ?_, ?_⟩
    · simp [sampleFitClients, if_neg (not_lt.mpr hge)]
    · rw [List.length_take, min_eq_left hsize, numFitClients]
    · exact List.take_sublist _ _
    · intro hnd
      exact hnd.sublist (List.take_sublist _ _)
  · have hfl : ⌊(5 / 100 : ℚ) * (1000 : Nat)⌋ = 50 := by norm_num
    rw [numFitClients, hfl]
    rfl

/-- Concrete instance of claim C7: a distinct pool of 10 clients,
`fraction_fit = 1/2`, `min_fit_clients = 2`, `min_available_clients = 3`. -/
theorem claim_C7_witness :
    numFitClients (List.range 10).length (1 / 2) 2 ≤ (List.range 10).length ∧
    (((List.range 10).length < 3 →
      sampleFitClients (List.range 10) (1 / 2) 2 3 = .error .insufficientClients) ∧
     (3 ≤ (List.range 10).length → ∃ s,
       sampleFitClients (List.range 10) (1 / 2) 2 3 = .ok s ∧
       s.length = max (Int.toNat ⌊(1 / 2 : ℚ) * (List.range 10).length⌋) 2 ∧
       s.Sublist (List.range 10) ∧ ((List.range 10).Nodup → s.Nodup)) ∧
     numFitClients 1000 (5 / 100) 20 = 50) := by
  have hsize : numFitClients (List.range 10).length (1 / 2) 2 ≤ (List.range 10).length := by
    have hfl : ⌊(1 / 2 : ℚ) * ((List.range 10).length : Nat)⌋ = 5 := by
      rw [List.length_range]
      norm_num
    rw [numFitClients, hfl]
    simp [List.length_range]
  exact ⟨hsize, claim_C7 (List.range 10) (1 / 2) 2 3 hsize⟩

/-! ## PrivacyAccountant: Renyi-DP composition

The accountant lives in the external privacy-accounting library; it is
modelled from the spec: a profile of accumulated Renyi divergences over a
fixed list of tracked orders, additive composition, and a minimum-over-orders
conversion to epsilon. -/

/-- Modelled from the spec: a privacy event — a composed description of one
round's randomized mechanism.  The accountant library's primitive events are
abstracted by their Renyi-divergence curve over orders; `composed` composes a
list of events and `selfComposed` repeats one event a number of times. -/
inductive DpEvent where
  | base (rdpCurve : ℝ → ℝ)
  | composed (events : List DpEvent)
  | selfComposed (event : DpEvent) (count : Nat)

/-- Modelled from the spec: the Renyi divergence an event contributes at one
order, under the additive composition rule for Renyi-DP. -/
noncomputable def rdpOf : DpEvent → ℝ → ℝ
  | .base curve, a => curve a
  | .composed [], _ => 0
  | .composed (e :: es), a => rdpOf e a + rdpOf (.composed es) a
  | .selfComposed e k, a => k * rdpOf e a

/-- The accountant's state: the tracked Renyi orders and the accumulated
Renyi divergence at each. -/
structure RdpAccountant where
  orders : List ℝ
  rdps : List ℝ

/-- Modelled from the spec: a fresh accountant has accumulated no Renyi
divergence at any tracked order. -/
noncomputable def freshAccountant (orders : List ℝ) : RdpAccountant :=
  ⟨orders, orders.map (fun _ => 0)⟩

/-- Modelled from the spec: `record(event)` composes the event into the
running profile by adding its Renyi divergence at each tracked order. -/
noncomputable def recordEvent (acc : RdpAccountant) (e : DpEvent) : RdpAccountant :=
  ⟨acc.orders, List.zipWith (fun a r => r + rdpOf e a) acc.orders acc.rdps⟩

/-- The standard Renyi-to-approximate-DP conversion at one order. -/
noncomputable def rdpToEps (delta a r : ℝ) : ℝ := r + Real.log (1 / delta) / (a - 1)

/-- Minimum of a nonempty list of reals (0 for the empty list). -/
noncomputable def listMin : List ℝ → ℝ
  | [] => 0
  | x :: xs => xs.foldl min x

/-- Modelled from the spec: `get_epsilon(delta)` takes the minimum over all
tracked orders of the Renyi-to-approximate-DP conversion of the accumulated
profile. -/
noncomputable def get_epsilon (acc : RdpAccountant) (delta : ℝ) : ℝ :=
  listMin (List.zipWith (fun a r => rdpToEps delta a r) acc.orders acc.rdps)

theorem recordEvent_composed_pair (orders : List ℝ) (e1 e2 : DpEvent) :
    recordEvent (freshAccountant orders) (.composed [e1, e2]) =
      recordEvent (recordEvent (freshAccountant orders) e1) e2 := by
  have hrdps : ∀ l : List ℝ,
      List.zipWith (fun a r => r + rdpOf (.composed [e1, e2]) a) l (l.map fun _ => (0 : ℝ)) =
        List.zipWith (fun a r => r + rdpOf e2 a) l
          (List.zipWith (fun a r => r + rdpOf e1 a) l (l.map fun _ => (0 : ℝ))) := by
    intro l
    induction l with
    | nil => rfl
    | cons x t ih =>
      simp only [List.map_cons, List.zipWith_cons_cons, ih, List.cons.injEq, and_true]
      simp [rdpOf]
  simp only [recordEvent, freshAccountant]
  exact congrArg (RdpAccountant.mk orders) (hrdps orders)

/-- Claim C6: recording the composed event `[e1, e2]` into a fresh accountant
and querying `get_epsilon(delta)` gives exactly the same accountant state and
the same epsilon as recording `e1` and then `e2` sequentially — Renyi-DP
composition is additive over the tracked orders, and `get_epsilon` takes the
minimum over orders of the conversion, so it agrees too. -/
theorem claim_C6 (orders : List ℝ) (e1 e2 : DpEvent) (delta : ℝ) :
    recordEvent (freshAccountant orders) (.composed [e1, e2]) =
      recordEvent (recordEvent (freshAccountant orders) e1) e2 ∧
    get_epsilon (recordEvent (freshAccountant orders) (.composed [e1, e2])) delta =
      get_epsilon (recordEvent (recordEvent (freshAccountant orders) e1) e2) delta := by
  refine ⟨recordEvent_composed_pair orders e1 e2, ?_⟩
  rw [recordEvent_composed_pair orders e1 e2]

/-! ## PrivacyAccountant: calibration search

`calibrate_dp_mechanism` lives in the external privacy-accounting library; it
is modelled from the spec: a bracketed discrete binary/bisection search over
an integer domain for the smallest client count achieving the target epsilon,
failing when the bracket's most favorable endpoint misses the target. -/

/-- Modelled from the spec: one discrete bisection pass of the calibration
search (the search code lives in the external accounting library).  The
bracket invariant is `target < f lo` and `f hi ≤ target`; the bracket halves
until it is two adjacent integers and `hi` is returned.  The first argument
is fuel bounding the bracket width, which shrinks at every step. -/
def bisect (f : Nat → ℚ) (target : ℚ) : Nat → Nat → Nat → Nat
  | 0, _, hi => hi
  | fuel + 1, lo, hi =>
    if hi ≤ lo + 1 then hi
    else if f ((lo + hi) / 2) ≤ target then bisect f target fuel lo ((lo + hi) / 2)
    else bisect f target fuel ((lo + hi) / 2) hi

/-- Modelled from the spec: `calibrate_dp_mechanism` with a discrete explicit
bracket `[lo, hi]` (the search code lives in the external accounting
library): if the bracket's low end already meets the target it is returned;
otherwise, if the bracket's most favorable endpoint `hi` meets the target,
the bisection narrows to the boundary; otherwise the search fails with
`CalibrationInfeasible`, modelled as `none`. -/
def calibrate (f : Nat → ℚ) (target : ℚ) (lo hi : Nat) : Option Nat :=
  if f lo ≤ target then some lo
  else if f hi ≤ target then some (bisect f target (hi - lo) lo hi)
  else none

theorem bisect_spec (f : Nat → ℚ) (t : ℚ) :
    ∀ fuel lo hi : Nat, lo < hi → hi - lo ≤ fuel → t < f lo → f hi ≤ t →
      lo < bisect f t fuel lo hi ∧ bisect f t fuel lo hi ≤ hi ∧
      f (bisect f t fuel lo hi) ≤ t ∧ t < f (bisect f t fuel lo hi - 1) := by
  intro fuel
  induction fuel with
  | zero => intro lo hi hlt hfuel _ _; omega
  | succ k ih =>
    intro lo hi hlt hfuel hlo hhi
    by_cases hadj : hi ≤ lo + 1
    · have hstep : bisect f t (k + 1) lo hi = hi := by simp [bisect, if_pos hadj]
      have hhi1 : hi = lo + 1 := by omega
      rw [hstep]
      exact ⟨by omega, le_refl _, hhi, by rw [hhi1]; simpa using hlo⟩
    · by_cases hmid : f ((lo + hi) / 2) ≤ t
      · have hstep : bisect f t (k + 1) lo hi = bisect f t k lo ((lo + hi) / 2) := by
          simp [bisect, if_neg hadj, if_pos hmid]
        rw [hstep]
        have h := ih lo ((lo + hi) / 2) (by omega) (by omega) hlo hmid
        exact ⟨h.1, by omega, h.2.2⟩
      · have hstep : bisect f t (k + 1) lo hi = bisect f t k ((lo + hi) / 2) hi := by
          simp [bisect, if_neg hadj, if_neg hmid]
        rw [hstep]
        have h := ih ((lo + hi) / 2) hi (by omega) (by omega) (lt_of_not_le hmid) hhi
        exact ⟨by omega, h.2.1, h.2.2⟩

/-- Claim C4 (amended): for every target epsilon and every non-increasing
achieved-epsilon function over the integer bracket, the calibration search
either returns the smallest client count `C` in the bracket with
`f C ≤ target` (every smaller count in the bracket strictly misses the
target), or fails — modelled as `none`, the `CalibrationInfeasible`
condition — exactly when no count in the bracket meets the target; it never
returns a non-minimal or infeasible count. -/
theorem claim_C4 (f : Nat → ℚ) (t : ℚ) (lo hi : Nat)
    (hmono : ∀ a b : Nat, a ≤ b → f b ≤ f a) (hle : lo ≤ hi) :
    (∀ C, calibrate f t lo hi = some C →
      lo ≤ C ∧ C ≤ hi ∧ f C ≤ t ∧ ∀ D, lo ≤ D → D < C → t < f D) ∧
    (calibrate f t lo hi = none → ∀ D, lo ≤ D → D ≤ hi → t < f D) := by
  by_cases h1 : f lo ≤ t
  · have hcal : calibrate f t lo hi = some lo := by simp [calibrate, if_pos h1]
    constructor
    · intro C hC
      rw [hcal] at hC
      obtain rfl : lo = C := Option.some.injEq _ _ ▸ hC
      exact ⟨le_refl _, hle, h1, fun D hD hD2 => absurd (lt_of_le_of_lt hD hD2) (lt_irrefl _)⟩
    · intro hC
      rw [hcal] at hC
      exact absurd hC (by simp)
  · by_cases h2 : f hi ≤ t
    · have hlt : lo < hi := by
        rcases lt_or_eq_of_le hle with h | h
        · exact h
        · exact absurd (h ▸ h2) h1
      have hb := bisect_spec f t (hi - lo) lo hi hlt (le_refl _) (lt_of_not_le h1) h2
      have hcal : calibrate f t lo hi = some (bisect f t (hi - lo) lo hi) := by
        simp [calibrate, if_neg h1, if_pos h2]
      constructor
      · intro C hC
        rw [hcal] at hC
        obtain rfl : bisect f t (hi - lo) lo hi = C := Option.some.injEq _ _ ▸ hC
        refine ⟨le_of_lt hb.1, hb.2.1, hb.2.2.1, fun D hD hDlt => ?_⟩
        have hD1 : D ≤ bisect f t (hi - lo) lo hi - 1 := by omega
        exact lt_of_lt_of_le hb.2.2.2 (hmono D _ hD1)
      · intro hC
        rw [hcal] at hC
        exact absurd hC (by simp)
    · have hcal : calibrate f t lo hi = none := by simp [calibrate, if_neg h1, if_neg h2]
      constructor
      · intro C hC
        rw [hcal] at hC
        exact absurd hC (by simp)
      · intro _ D _ hD
        exact lt_of_lt_of_le (lt_of_not_le h2) (hmono D hi hD)

/-- Claim C4, as stated, is false: for the non-monotone achieved-epsilon
profile `f(1) = 5, f(2) = 0, f(3) = 5` and target `1` on the bracket
`[1, 3]`, the bisection-based search fails (`none`, i.e.
`CalibrationInfeasible`) even though the count 2 inside the bracket satisfies
the target. -/
theorem claim_C4_counterexample :
    calibrate (fun n => if n = 2 then (0 : ℚ) else 5) 1 1 3 = none ∧
    (fun n => if n = 2 then (0 : ℚ) else 5) 2 ≤ 1 ∧ 1 ≤ 2 ∧ 2 ≤ 3 := by
  decide

/-- A concrete non-increasing achieved-epsilon profile used to instantiate
the calibration theorem. -/
def stepProfile (n : Nat) : ℚ := if n < 5 then 9 else 1

/-- Concrete instance of claim C4 at the non-increasing profile
`stepProfile`, target `5`, bracket `[1, 9]`. -/
theorem claim_C4_witness :
    (∀ a b : Nat, a ≤ b → stepProfile b ≤ stepProfile a) ∧ 1 ≤ 9 ∧
    ((∀ C, calibrate stepProfile 5 1 9 = some C →
      1 ≤ C ∧ C ≤ 9 ∧ stepProfile C ≤ 5 ∧ ∀ D, 1 ≤ D → D < C → 5 < stepProfile D) ∧
     (calibrate stepProfile 5 1 9 = none → ∀ D, 1 ≤ D → D ≤ 9 → 5 < stepProfile D)) := by
  have hmono : ∀ a b : Nat, a ≤ b → stepProfile b ≤ stepProfile a := by
    intro a b h
    by_cases hb : b < 5
    · have ha : a < 5 := lt_of_le_of_lt h hb
      simp [stepProfile, ha, hb]
    · by_cases ha : a < 5 <;> simp [stepProfile, ha, hb]
  exact ⟨hmono, by norm_num, claim_C4 stepProfile 5 1 9 hmono (by norm_num)⟩

end Flower
